import Mathlib

/-!
Shallow embedding of `src/pywsd/lesk.py` (pyWSD, Lesk word-sense
disambiguation).  External collaborators (WordNet, the stopword list, the
lemmatizer, the Porter stemmer, `word_tokenize`, and the cosine-similarity
helper from `cosine.py`) are modelled as fields of an explicit environment
`Env`; the algorithmic core of `lesk.py` is translated function by function.

Modelling conventions:
* A WordNet `Synset` is modelled with its textual fields already split into
  words (`definition().split()` becomes the stored word list), matching the
  spec data model; related synsets are carried as `RelSense` values holding
  the name and lemma names, which is all `lesk.py` ever reads from them.
* Python dictionaries keyed by synsets are association lists in iteration
  order; `wn.synsets` returns each synset at most once, so no key collision
  handling is needed.
* Python runtime faults that the code can actually hit (`IndexError` on
  `ranked_synsets[0]`, `ZeroDivisionError` in score normalization,
  `NameError` from the loop variables of `adapted_lesk` when the loop body
  never runs) are made explicit with `Except PyErr`.
* `sorted(..., reverse=True)` on `(score, synset)` tuples is insertion sort
  on the lexicographic key (score, synset name), matching NLTK's synset
  ordering by name; on distinct keys this coincides with Python's sort.
* `list(set(...))` in `adapted_lesk` iterates in unspecified order; it is
  modelled as `List.dedup`, a deterministic choice of the same set.
-/

/-- A related synset as seen from `lesk.py`: only its identity and its
`lemma_names()` are ever used. -/
structure RelSense where
  name : String
  lemma_names : List String
deriving DecidableEq

/-- A WordNet synset, restricted to the fields `lesk.py` reads. -/
structure Synset where
  name : String
  pos : String
  definition : List String
  examples : List (List String)
  lemma_names : List String
  hypernyms : List RelSense
  hyponyms : List RelSense
  member_holonyms : List RelSense
  member_meronyms : List RelSense
  part_meronyms : List RelSense
  part_holonyms : List RelSense
  similar_tos : List RelSense
  substance_holonyms : List RelSense
  substance_meronyms : List RelSense
deriving DecidableEq

/-- The context argument handed to `cosine_similarity`: Python is untyped and
`cosine_lesk` passes either a joined string or a raw token list. -/
inductive CtxArg where
  | str : String → CtxArg
  | toks : List String → CtxArg
deriving DecidableEq

/-- The external collaborators of `lesk.py`. -/
structure Env where
  synsets : String → List Synset
  stopwords : List String
  lemmatize : String → String
  stem : String → String
  word_tokenize : String → List String
  cos_sim : CtxArg → String → ℚ

/-- Python runtime faults reachable in `lesk.py`. -/
inductive PyErr where
  | indexError : PyErr
  | zeroDivisionError : PyErr
  | nameError : PyErr
deriving DecidableEq

/-- The possible (dynamically typed) return values of the lesk entry points
and of `compare_overlaps`. -/
inductive PyVal where
  | vNone : PyVal
  | vSense : Synset → PyVal
  | vScored : ℚ × Synset → PyVal
  | vSenseList : List Synset → PyVal
  | vScoredList : List (ℚ × Synset) → PyVal
  | vSenseScoredList : List (Synset × ℚ) → PyVal
deriving DecidableEq

/-! ### Python string primitives, implemented by structural recursion so that
concrete instances evaluate inside the kernel. -/

/-- Helper for `splitWS`: consume characters, `cur` is the current word in
reverse. -/
def splitWSAux : List Char → List Char → List String
  | [], [] => []
  | [], cur => [⟨cur.reverse⟩]
  | c :: cs, cur =>
    if c = ' ' then
      match cur with
      | [] => splitWSAux cs []
      | _ => ⟨cur.reverse⟩ :: splitWSAux cs []
    else splitWSAux cs (c :: cur)

/-- Python `str.split()`: split on runs of whitespace, dropping empties
(whitespace restricted to the space character, the only one arising here). -/
def splitWS (s : String) : List String := splitWSAux s.data []

/-- Characters of Python `" ".join(l)`. -/
def joinSpaceChars : List String → List Char
  | [] => []
  | [s] => s.data
  | s :: t :: rest => s.data ++ ' ' :: joinSpaceChars (t :: rest)

/-- Python `" ".join(l)`. -/
def joinSpace (l : List String) : String := ⟨joinSpaceChars l⟩

/-- Python `str.lower()`. -/
def pyLower (s : String) : String := ⟨s.data.map Char.toLower⟩

/-- Python `str.replace("_", " ")` (single-character pattern). -/
def replaceUnderscores (s : String) : String :=
  ⟨s.data.map (fun c => if c = '_' then ' ' else c)⟩

/-- `needle` occurs at the start of `hay`. -/
def isLeadOf : List Char → List Char → Bool
  | [], _ => true
  | _ :: _, [] => false
  | a :: as, b :: bs => a = b && isLeadOf as bs

/-- `needle` occurs somewhere in `hay`. -/
def containsChars (needle : List Char) : List Char → Bool
  | [] => needle.isEmpty
  | c :: cs => isLeadOf needle (c :: cs) || containsChars needle cs

/-- Python `needle in hay` on strings: substring containment. -/
def pyInStr (needle hay : String) : Bool := containsChars needle.data hay.data

/-- Python's `string.punctuation` constant. -/
def pyPunctuation : String := "!\"#$%&\x27()*+,-./:;<=>?@[\\]^_\x60\x7b|\x7d~"

/-! ### Overlap scoring (`compare_overlaps_greedy`, `compare_overlaps`) -/

/-- `len(set(signature).intersection(context))`: the number of distinct
signature words that occur in the context. -/
def overlapNat (context : List String) (sig : List String) : Nat :=
  (sig.dedup.filter (fun w => decide (w ∈ context))).length

/-- The `(len(overlap), synset)` pairs built by `compare_overlaps`, in
iteration order of the signature mapping. -/
def overlapScores (context : List String) (sigs : List (Synset × List String)) :
    List (Nat × Synset) :=
  sigs.map (fun p => (overlapNat context p.2, p.1))

/-- Strict lexicographic comparison of strings by code point, as Python
compares the names NLTK synsets order themselves by. -/
def charListLT : List Char → List Char → Bool
  | [], [] => false
  | [], _ :: _ => true
  | _ :: _, [] => false
  | a :: as, b :: bs =>
    Nat.blt a.toNat b.toNat || (a = b && charListLT as bs)

/-- Python `s < t` on strings. -/
def strLT (s t : String) : Bool := charListLT s.data t.data

/-- Strict lexicographic order on `(score, synset)` used by Python's tuple
comparison (NLTK synsets compare by name). -/
def keyLT (a b : Nat × Synset) : Bool :=
  decide (a.1 < b.1) || (decide (a.1 = b.1) && strLT a.2.name b.2.name)

/-- Insert into a descending-sorted list, after any element not strictly
below `x` (stable, like Python's sort). -/
def insertDesc (x : Nat × Synset) : List (Nat × Synset) → List (Nat × Synset)
  | [] => [x]
  | y :: ys => if keyLT y x then x :: y :: ys else y :: insertDesc x ys

/-- `sorted(l, reverse=True)` on `(score, synset)` tuples. -/
def sortDesc : List (Nat × Synset) → List (Nat × Synset)
  | [] => []
  | x :: xs => insertDesc x (sortDesc xs)

/-- The sense list `[i[1] for i in sorted(overlaplen_synsets, reverse=True)]`
recomputed by `compare_overlaps` when `keepscore` is false. -/
def rankedSenses (context : List String) (sigs : List (Synset × List String)) :
    List Synset :=
  (sortDesc (overlapScores context sigs)).map (fun p => p.2)

/-- Score normalization step of `compare_overlaps`.  The list comprehension
`[(i/total, j) for i, j in ranked_synsets]` executes a division only when the
list is nonempty, and Python raises `ZeroDivisionError` when `total` is `0.0`. -/
def normalizeStep (ranked : List (Nat × Synset)) (normalizescore : Bool) :
    Except PyErr (List (ℚ × Synset)) :=
  if normalizescore then
    match ranked with
    | [] => .ok []
    | _ :: _ =>
      if (((ranked.map (fun p => p.1)).sum : Nat) : ℚ) = 0 then
        .error .zeroDivisionError
      else
        .ok (ranked.map
          (fun p => ((p.1 : ℚ) / (((ranked.map (fun q => q.1)).sum : Nat) : ℚ), p.2)))
  else .ok (ranked.map (fun p => ((p.1 : ℚ), p.2)))

/-- `compare_overlaps` (lesk.py lines 41-67). -/
def compare_overlaps (context : List String) (sigs : List (Synset × List String))
    (nbest keepscore normalizescore : Bool) : Except PyErr PyVal :=
  match normalizeStep (sortDesc (overlapScores context sigs)) normalizescore with
  | .error e => .error e
  | .ok rq =>
    if keepscore then
      if nbest then .ok (.vScoredList rq)
      else
        match rq with
        | [] => .error .indexError
        | x :: _ => .ok (.vScored x)
    else
      match rankedSenses context sigs with
      | [] => if nbest then .ok (.vSenseList []) else .error .indexError
      | x :: xs => if nbest then .ok (.vSenseList (x :: xs)) else .ok (.vSense x)

/-- One step of the greedy scorer's running maximum. -/
def greedyStep (context : List String) (st : Nat × Option Synset)
    (p : Synset × List String) : Nat × Option Synset :=
  if st.1 < overlapNat context p.2 then (overlapNat context p.2, some p.1) else st

/-- `compare_overlaps_greedy` (lesk.py lines 23-39): running maximum started
at 0, returning `None` when no sense has positive overlap. -/
def compare_overlaps_greedy (context : List String)
    (sigs : List (Synset × List String)) : Option Synset :=
  (sigs.foldl (greedyStep context) (0, none)).2

/-! ### Cosine-side sorting on rational scores -/

/-- Strict lexicographic order on `(similarity, synset)` tuples. -/
def keyLTQ (a b : ℚ × Synset) : Bool :=
  decide (a.1 < b.1) || (decide (a.1 = b.1) && strLT a.2.name b.2.name)

/-- Descending insertion for similarity-scored candidates. -/
def insertDescQ (x : ℚ × Synset) : List (ℚ × Synset) → List (ℚ × Synset)
  | [] => [x]
  | y :: ys => if keyLTQ y x then x :: y :: ys else y :: insertDescQ x ys

/-- `sorted(scores, reverse=True)` in `cosine_lesk`. -/
def sortDescQ : List (ℚ × Synset) → List (ℚ × Synset)
  | [] => []
  | x :: xs => insertDescQ x (sortDescQ xs)

/-! ### Signature building (`simple_signature`) and the four entry points -/

/-- The part-of-speech filter of `simple_signature`: Python
`if pos and str(ss.pos()) != pos: continue` skips a synset only when `pos`
is truthy (not `None`, not the empty string) and differs from the synset's. -/
def posFilters (pos : Option String) (sspos : String) : Bool :=
  match pos with
  | none => false
  | some p => decide (p ≠ "") && decide (sspos ≠ p)

/-- Lemma names of `ss.hypernyms() + ss.hyponyms()`, chained. -/
def hyperhypoLemmaNames (ss : Synset) : List String :=
  ((ss.hypernyms ++ ss.hyponyms).map RelSense.lemma_names).flatten

/-- The per-synset signature body of `simple_signature`: definition words,
flattened example words and lemma names, optionally hypernym/hyponym lemma
names, then stopword removal, lemmatization and stemming in that order. -/
def sigOf (env : Env) (lemma_ stem hyperhypo stop : Bool) (ss : Synset) :
    List String :=
  let s1 := ss.definition ++ ss.examples.flatten ++ ss.lemma_names
  let s2 := if hyperhypo then s1 ++ hyperhypoLemmaNames ss else s1
  let s3 := if stop then s2.filter (fun i => decide (i ∉ env.stopwords)) else s2
  let s4 := if lemma_ then s3.map env.lemmatize else s3
  if stem then s4.map env.stem else s4

/-- `simple_signature` (lesk.py lines 86-132): association list from each
candidate synset to its signature, in `wn.synsets` order. -/
def simple_signature (env : Env) (word : String) (pos : Option String)
    (lemma_ stem hyperhypo stop : Bool) : List (Synset × List String) :=
  ((env.synsets word).filter (fun ss => ! posFilters pos ss.pos)).map
    (fun ss => (ss, sigOf env lemma_ stem hyperhypo stop ss))

/-- The signature mapping `simple_lesk` scores against: `simple_lesk` calls
`simple_signature(ambiguous_word, pos, lemma, stem, hyperhypo)`, so the
builder's `stop` option is left at its default `True`. -/
def simple_lesk_signatures (env : Env) (word : String) (pos : Option String)
    (lemma_ stem hyperhypo : Bool) : List (Synset × List String) :=
  simple_signature env word pos lemma_ stem hyperhypo true

/-- Context preparation shared by `simple_lesk` and `adapted_lesk`. -/
def contextBag (env : Env) (context_sentence : String)
    (context_is_lemmatized : Bool) : List String :=
  if context_is_lemmatized then splitWS context_sentence
  else (splitWS context_sentence).map env.lemmatize

/-- `original_lesk` (lesk.py lines 69-84): greedy scorer over a dictionary of
definitions (a falsy caller-supplied dictionary is replaced by the WordNet
definition dictionary). -/
def original_lesk (env : Env) (context_sentence ambiguous_word : String)
    (dictionary : Option (List (Synset × List String))) : Option Synset :=
  let w := env.lemmatize ambiguous_word
  let d :=
    match dictionary with
    | none => (env.synsets w).map (fun ss => (ss, ss.definition))
    | some dd =>
      if dd.isEmpty then (env.synsets w).map (fun ss => (ss, ss.definition))
      else dd
  compare_overlaps_greedy (splitWS context_sentence) d

/-- `simple_lesk` (lesk.py lines 134-155).  Its parameters are exactly the
ones of the Python definition: `pos`, `lemma`, `stem`, `hyperhypo`,
`context_is_lemmatized`, `nbest`, `keepscore`, `normalizescore` — there is no
`stop` parameter. -/
def simple_lesk (env : Env) (context_sentence ambiguous_word : String)
    (pos : Option String)
    (lemma_ stem hyperhypo context_is_lemmatized nbest keepscore
      normalizescore : Bool) : Except PyErr PyVal :=
  let w := env.lemmatize ambiguous_word
  compare_overlaps (contextBag env context_sentence context_is_lemmatized)
    (simple_lesk_signatures env w pos lemma_ stem hyperhypo)
    nbest keepscore normalizescore

/-- Modelled from the spec: the `simple` variant as the spec describes it,
with `lemma`, `stem`, `hyperhypo` AND `stop` all exposed as options of the
entry point.  Used only to compare the code's `simple_lesk` against the
spec's claim that `stop` is configurable. -/
def simple_lesk_spec (env : Env) (context_sentence ambiguous_word : String)
    (pos : Option String)
    (lemma_ stem hyperhypo stop context_is_lemmatized nbest keepscore
      normalizescore : Bool) : Except PyErr PyVal :=
  let w := env.lemmatize ambiguous_word
  compare_overlaps (contextBag env context_sentence context_is_lemmatized)
    (simple_signature env w pos lemma_ stem hyperhypo stop)
    nbest keepscore normalizescore

/-- The relation-closure word list of `adapted_lesk`: lemma names of the
deduplicated union of the seven relation accessors of one synset, with
stopwords removed (this stopword filter is unconditional in the source). -/
def relationClosureLemmas (env : Env) (ss : Synset) : List String :=
  let related := (ss.member_holonyms ++ ss.member_meronyms ++ ss.part_meronyms
    ++ ss.part_holonyms ++ ss.similar_tos ++ ss.substance_holonyms
    ++ ss.substance_meronyms).dedup
  ((related.map RelSense.lemma_names).flatten).filter
    (fun j => decide (j ∉ env.stopwords))

/-- Replace the last element of a list, if any. -/
def updateLast (l : List α) (f : α → α) : List α :=
  match l with
  | [] => []
  | x :: xs =>
    match xs with
    | [] => [f x]
    | _ :: _ => x :: updateLast xs f

/-- The signature mapping `adapted_lesk` scores against (lesk.py lines
171-190).  The `for ss in ss_sign` loop recomputes `signature` on every
iteration, but the lemmatize/stem post-processing and the
`ss_sign[ss] += signature` update sit after the loop, so only the last
iterated synset's relation closure survives and only that synset's entry is
extended; on an empty mapping the loop variables are never bound and Python
raises `NameError`. -/
def adaptedSignatures (env : Env) (word : String) (pos : Option String)
    (lemma_ stem hyperhypo : Bool) :
    Except PyErr (List (Synset × List String)) :=
  let ss_sign := simple_signature env word pos lemma_ stem hyperhypo true
  match ss_sign.getLast? with
  | none => .error .nameError
  | some last =>
    let sig0 := relationClosureLemmas env last.1
    let sig1 := if lemma_ then sig0.map env.lemmatize else sig0
    let sig2 := if stem then sig1.map env.stem else sig1
    .ok (updateLast ss_sign (fun p => (p.1, p.2 ++ sig2)))

/-- `adapted_lesk` (lesk.py lines 157-200).  The `stop` parameter exists but
is used nowhere in the body (it is not forwarded to `simple_signature`). -/
def adapted_lesk (env : Env) (context_sentence ambiguous_word : String)
    (pos : Option String)
    (lemma_ stem hyperhypo stop context_is_lemmatized nbest keepscore
      normalizescore : Bool) : Except PyErr PyVal :=
  let w := env.lemmatize ambiguous_word
  match adaptedSignatures env w pos lemma_ stem hyperhypo with
  | .error e => .error e
  | .ok sigs =>
    compare_overlaps (contextBag env context_sentence context_is_lemmatized)
      sigs nbest keepscore normalizescore

/-- The signature mapping built by `cosine_lesk` (lesk.py line 212):
`simple_signature(ambiguous_word, stem=stem, stop=stop)`, so `pos`, `lemma`
and `hyperhypo` keep the builder defaults `None`, `True` and `True`. -/
def cosine_lesk_signatures (env : Env) (word : String) (stem stop : Bool) :
    List (Synset × List String) :=
  simple_signature env word none true stem true stop

/-- The context value `cosine_lesk` hands to `cosine_similarity`: a raw token
list when `context_is_lemmatized` is true, otherwise a space-joined string of
lemmatized tokens. -/
def cosineContextArg (env : Env) (context_sentence : String)
    (context_is_lemmatized : Bool) : CtxArg :=
  if context_is_lemmatized then CtxArg.toks (splitWS context_sentence)
  else CtxArg.str (joinSpace ((splitWS context_sentence).map env.lemmatize))

/-- The rendering of one signature inside `cosine_lesk`'s loop: join,
lowercase, underscores to spaces, tokenize, drop punctuation tokens, then
optional stopword removal, lemmatization and stemming. -/
def renderSignature (env : Env) (sig : List String) (lemma_ stem stop : Bool) :
    List String :=
  let s := replaceUnderscores (pyLower (joinSpace sig))
  let toks := (env.word_tokenize s).filter (fun i => ! pyInStr i pyPunctuation)
  let t1 := if stop then toks.filter (fun i => decide (i ∉ env.stopwords))
    else toks
  let t2 := if lemma_ then t1.map env.lemmatize else t1
  if stem then t2.map env.stem else t2

/-- `cosine_lesk` (lesk.py lines 202-239).  The `if not nbest ... else ...`
return statements sit INSIDE the `for ss, signature in ...` loop, so the
function returns during the first iteration, after scoring a single sense;
with no senses at all the loop body never runs and Python returns `None`. -/
def cosine_lesk (env : Env) (context_sentence ambiguous_word : String)
    (lemma_ stem stop context_is_lemmatized nbest : Bool) : PyVal :=
  let w := env.lemmatize ambiguous_word
  let sigs := cosine_lesk_signatures env w stem stop
  let ctx := cosineContextArg env context_sentence context_is_lemmatized
  match sigs with
  | [] => PyVal.vNone
  | (ss, sg) :: _ =>
    let score := env.cos_sim ctx (joinSpace (renderSignature env sg lemma_ stem stop))
    let scores := [(score, ss)]
    if nbest then
      PyVal.vSenseScoredList ((sortDescQ scores).map (fun p => (p.2, p.1)))
    else
      match sortDescQ scores with
      | [] => PyVal.vNone
      | x :: _ => PyVal.vSense x.2

/-! ### Declared defaults of the entry points, read off the `def` lines -/

/-- Defaults of `simple_lesk`'s signature-shaping parameters
(lesk.py lines 134-137): `pos=None, lemma=True, stem=False, hyperhypo=True`. -/
def simple_lesk_defaults : Option String × Bool × Bool × Bool :=
  (none, true, false, true)

/-- Defaults of `cosine_lesk`'s parameters (lesk.py lines 202-204):
`lemma=True, stem=False, stop=True`. -/
def cosine_lesk_defaults : Bool × Bool × Bool :=
  (true, false, true)

/-! ### Concrete knowledge bases used to evaluate the code at specific inputs -/

/-- A synset with only a name, a part of speech and definition words. -/
def mkSynset (name pos : String) (defn : List String) : Synset :=
  ⟨name, pos, defn, [], [], [], [], [], [], [], [], [], [], []⟩

/-- Environment whose knowledge base knows no word at all (identity
normalizers, empty stopword list). -/
def envId : Env := ⟨fun _ => [], [], id, id, splitWS, fun _ _ => 0⟩

/-- A single sense used to probe `compare_overlaps`. -/
def sOnly : Synset := mkSynset "s.n.01" "n" ["aaa"]

/-- Two senses whose signatures are distinguished by the similarity
collaborator: the second one scores 1, the first one 0. -/
def sA2 : Synset := mkSynset "a.n.01" "n" ["aaa"]

/-- Second sense of the two-sense knowledge base. -/
def sB2 : Synset := mkSynset "b.n.01" "n" ["bbb"]

/-- Environment with two candidate senses for every word, whose cosine
collaborator prefers the second sense's signature. -/
def envTwo : Env :=
  ⟨fun _ => [sA2, sB2], [], id, id, splitWS, fun _ s => if pyInStr "bbb" s then 1 else 0⟩

deriving instance DecidableEq for Except

/-- Two senses with identical positive overlap, used to exhibit the tie
divergence between the greedy and the ranked scorer. -/
def sA3 : Synset := mkSynset "a.n.01" "n" []

/-- Second sense of the tie pair; its name compares greater than `sA3`'s. -/
def sB3 : Synset := mkSynset "b.n.01" "n" []

/-- A related sense reached through `similar_tos`. -/
def rRel : RelSense := ⟨"r.a.01", ["rel"]⟩

/-- First sense of the two-sense knowledge base probing `adapted_lesk`. -/
def sA5 : Synset := mkSynset "a.n.01" "n" ["aaa"]

/-- Last sense of that knowledge base; the only one with a semantic
relation. -/
def sB5 : Synset :=
  ⟨"b.n.01", "n", ["bbb"], [], [], [], [], [], [], [], [], [rRel], [], []⟩

/-- Environment probing the relation-closure augmentation of
`adapted_lesk`. -/
def env5 : Env := ⟨fun _ => [sA5, sB5], [], id, id, splitWS, fun _ _ => 0⟩

/-- A sense whose whole signature is one stopword. -/
def sThe : Synset := mkSynset "s.n.01" "n" ["the"]

/-- Environment whose stopword list contains the only signature word of
`sThe`. -/
def env6 : Env := ⟨fun _ => [sThe], ["the"], id, id, splitWS, fun _ _ => 0⟩

/-- A hypernym carrying the lemma name "hyp". -/
def hypRel : RelSense := ⟨"h.n.01", ["hyp"]⟩

/-- A sense whose only semantic neighbour is the hypernym `hypRel`. -/
def sHyp : Synset :=
  ⟨"s.n.01", "n", ["def"], [], [], [hypRel], [], [], [], [], [], [], [], []⟩

/-- Environment probing the hyperhypo content of `cosine_lesk` signatures. -/
def env7 : Env := ⟨fun _ => [sHyp], [], id, id, splitWS, fun _ _ => 0⟩

/-! ### Order and accumulator lemmas for the two scorers -/

/-- If Python's tuple comparison puts `y` strictly below `x`, then `y`'s
score is at most `x`'s. -/
theorem keyLT_true_score_le {y x : Nat × Synset} (h : keyLT y x = true) : y.1 ≤ x.1 := by
  simp only [keyLT, Bool.or_eq_true, Bool.and_eq_true, decide_eq_true_eq] at h
  rcases h with h | ⟨h, _⟩
  · exact Nat.le_of_lt h
  · exact Nat.le_of_eq h

/-- If `y` is not strictly below `x`, then `x`'s score is at most `y`'s. -/
theorem keyLT_false_score_le {y x : Nat × Synset} (h : keyLT y x = false) : x.1 ≤ y.1 := by
  simp only [keyLT, Bool.or_eq_false_iff, Bool.and_eq_false_iff, decide_eq_false_iff_not] at h
  exact Nat.le_of_not_lt h.1

/-- Membership through descending insertion. -/
theorem mem_insertDesc {a x : Nat × Synset} {l : List (Nat × Synset)} :
    a ∈ insertDesc x l ↔ a = x ∨ a ∈ l := by
  induction l with
  | nil => simp [insertDesc]
  | cons y ys ih =>
    simp only [insertDesc]
    cases hk : keyLT y x with
    | true => simp [List.mem_cons]
    | false =>
      simp only [Bool.false_eq_true, if_false, List.mem_cons, ih]
      tauto

/-- Descending insertion preserves the non-increasing-score invariant. -/
theorem insertDesc_pairwise {x : Nat × Synset} {l : List (Nat × Synset)}
    (h : l.Pairwise (fun a b => b.1 ≤ a.1)) :
    (insertDesc x l).Pairwise (fun a b => b.1 ≤ a.1) := by
  induction l with
  | nil => simp [insertDesc]
  | cons y ys ih =>
    rcases List.pairwise_cons.mp h with ⟨hy, hys⟩
    simp only [insertDesc]
    cases hk : keyLT y x with
    | true =>
      refine List.pairwise_cons.mpr ⟨?_, h⟩
      intro z hz
      rcases List.mem_cons.mp hz with rfl | hz'
      · exact keyLT_true_score_le hk
      · exact le_trans (hy z hz') (keyLT_true_score_le hk)
    | false =>
      simp only [Bool.false_eq_true, if_false]
      refine List.pairwise_cons.mpr ⟨?_, ih hys⟩
      intro z hz
      rcases mem_insertDesc.mp hz with rfl | hz'
      · exact keyLT_false_score_le hk
      · exact hy z hz'

/-- `sorted(..., reverse=True)` yields non-increasing scores. -/
theorem sortDesc_pairwise (l : List (Nat × Synset)) :
    (sortDesc l).Pairwise (fun a b => b.1 ≤ a.1) := by
  induction l with
  | nil => simp [sortDesc]
  | cons x xs ih => exact insertDesc_pairwise ih

/-- Sorting neither adds nor drops candidates. -/
theorem mem_sortDesc {a : Nat × Synset} {l : List (Nat × Synset)} :
    a ∈ sortDesc l ↔ a ∈ l := by
  induction l with
  | nil => simp [sortDesc]
  | cons x xs ih => simp [sortDesc, mem_insertDesc, ih]

/-- Insertion never produces an empty list. -/
theorem insertDesc_ne_nil (x : Nat × Synset) (l : List (Nat × Synset)) :
    insertDesc x l ≠ [] := by
  cases l with
  | nil => simp [insertDesc]
  | cons y ys =>
    simp only [insertDesc]
    cases keyLT y x <;> simp

/-- Sorting a nonempty candidate list gives a nonempty ranking. -/
theorem sortDesc_ne_nil {l : List (Nat × Synset)} (h : l ≠ []) : sortDesc l ≠ [] := by
  cases l with
  | nil => exact absurd rfl h
  | cons x xs => exact insertDesc_ne_nil x (sortDesc xs)

/-- The greedy scorer's fold is inert while no overlap exceeds the running
maximum. -/
theorem greedy_foldl_const (ctx : List String) (l : List (Synset × List String))
    (st : Nat × Option Synset) (h : ∀ p ∈ l, overlapNat ctx p.2 ≤ st.1) :
    l.foldl (greedyStep ctx) st = st := by
  induction l with
  | nil => rfl
  | cons a t ih =>
    have ha := h a (List.mem_cons_self a t)
    have hstep : greedyStep ctx st a = st := by
      simp [greedyStep, Nat.not_lt.mpr ha]
    rw [List.foldl_cons, hstep]
    exact ih fun p hp => h p (List.mem_cons_of_mem a hp)

/-- The greedy scorer's running maximum stays below a strict bound on the
remaining overlaps. -/
theorem greedy_foldl_lt (ctx : List String) (l : List (Synset × List String)) (M : Nat) :
    ∀ st : Nat × Option Synset, (∀ p ∈ l, overlapNat ctx p.2 < M) → st.1 < M →
      (l.foldl (greedyStep ctx) st).1 < M := by
  induction l with
  | nil => intro st _ hst; exact hst
  | cons a t ih =>
    intro st h hst
    rw [List.foldl_cons]
    refine ih _ (fun p hp => h p (List.mem_cons_of_mem a hp)) ?_
    by_cases hlt : st.1 < overlapNat ctx a.2
    · simpa [greedyStep, hlt] using h a (List.mem_cons_self a t)
    · simpa [greedyStep, hlt] using hst

/-- A successful normalization step preserves the non-increasing order of
the scores it rescales. -/
theorem normalizeStep_ok_pairwise {ranked : List (Nat × Synset)} {ns : Bool}
    {rq : List (ℚ × Synset)}
    (hpw : ranked.Pairwise (fun a b => b.1 ≤ a.1))
    (h : normalizeStep ranked ns = .ok rq) :
    rq.Pairwise (fun (a b : ℚ × Synset) => b.1 ≤ a.1) := by
  cases ns with
  | false =>
    unfold normalizeStep at h
    simp only [Bool.false_eq_true, if_false, Except.ok.injEq] at h
    subst h
    exact hpw.map _ (fun a b hab => Nat.cast_le.mpr hab)
  | true =>
    unfold normalizeStep at h
    cases ranked with
    | nil =>
      simp only [if_true] at h
      cases h
      exact List.Pairwise.nil
    | cons a t =>
      by_cases ht : ((((a :: t).map (fun p => p.1)).sum : Nat) : ℚ) = 0
      · rw [if_pos ht] at h
        cases h
      · simp only [if_true, if_neg ht, Except.ok.injEq] at h
        subst h
        have hT : (0 : ℚ) < ((((a :: t).map (fun q => q.1)).sum : Nat) : ℚ) := by
          refine lt_of_le_of_ne (Nat.cast_nonneg _) (Ne.symm ?_)
          simpa using ht
        exact hpw.map _
          (fun x y hxy => (div_le_div_iff_of_pos_right hT).mpr (Nat.cast_le.mpr hxy))

/-- `ss_sign[ss] += signature` on the last key of the mapping is an update
of the last association-list entry. -/
theorem updateLast_append_single (x : Synset × List String)
    (f : Synset × List String → Synset × List String) :
    ∀ init : List (Synset × List String), updateLast (init ++ [x]) f = init ++ [f x]
  | [] => rfl
  | [_] => rfl
  | a :: b :: t => by
    show a :: updateLast ((b :: t) ++ [x]) f = a :: ((b :: t) ++ [f x])
    rw [updateLast_append_single x f (b :: t)]

/-! ### Claims -/

/-- Claim C1: the spec requires every variant entry point to return a defined
empty/None result, without raising, on an ambiguous word with zero known
senses.  Evaluating the code on such a word: `original_lesk` and
`cosine_lesk` do return `None`, but `simple_lesk` reaches
`ranked_synsets[0]` on an empty ranking and raises `IndexError`, and
`adapted_lesk` reads the loop variables of a loop whose body never ran and
raises `NameError`.  The code contradicts the spec's stated error-handling
design on two of the four variants. -/
theorem unknown_word_all_variants_eval :
    original_lesk envId "I saw a bank" "xyzzy123" none = none ∧
    cosine_lesk envId "I saw a bank" "xyzzy123" true false true false false = PyVal.vNone ∧
    simple_lesk envId "I saw a bank" "xyzzy123" none true false true false false false false
      = Except.error PyErr.indexError ∧
    adapted_lesk envId "I saw a bank" "xyzzy123" none true true true true false false false false
      = Except.error PyErr.nameError := by
  exact ⟨rfl, rfl, rfl, rfl⟩

/-- Claim C2: the spec requires `cosine_lesk` to compute a similarity score
for every sense in the signature mapping.  The code's
`if not nbest ... else ...` return sits inside the scoring loop, so with a
two-sense mapping the call returns during the first iteration: the best
sense is the first sense (even though the collaborator scores the second
sense strictly higher), and the `nbest=True` ranking contains a single
element instead of two. -/
theorem cosine_lesk_single_sense_shortcircuit :
    cosine_lesk envTwo "c" "w" true false true false false = PyVal.vSense sA2 ∧
    cosine_lesk envTwo "c" "w" true false true false true = PyVal.vSenseScoredList [(sA2, 0)] ∧
    cosine_lesk_signatures envTwo "w" false true = [(sA2, ["aaa"]), (sB2, ["bbb"])] ∧
    envTwo.cos_sim (cosineContextArg envTwo "c" false)
      (joinSpace (renderSignature envTwo ["bbb"] true false true)) = 1 := by
  refine ⟨rfl, rfl, rfl, rfl⟩

/-- Claim C4: the spec requires a defined result (not an unhandled
division-by-zero fault) from `compare_overlaps` with `normalizescore=True`
when the total overlap is 0.  The code divides by `float(sum(...)) == 0.0`
and raises `ZeroDivisionError` whenever the candidate list is nonempty,
regardless of the other flags. -/
theorem normalizescore_zero_total_zero_division :
    compare_overlaps [] [(sOnly, ["aaa"])] true true true
      = Except.error PyErr.zeroDivisionError ∧
    compare_overlaps [] [(sOnly, ["aaa"])] false false true
      = Except.error PyErr.zeroDivisionError := by
  exact ⟨rfl, rfl⟩

/-- Claim C10: `cosine_lesk` hands the similarity collaborator a raw token
list when `context_is_lemmatized=True` but a space-joined lemmatized string
when it is `False`; on the sentence `"a b"` (already lemmatized, identical
token content on both paths) the two context values differ. -/
theorem cosine_context_representation_mismatch :
    cosineContextArg envId "a b" true = CtxArg.toks ["a", "b"] ∧
    cosineContextArg envId "a b" false = CtxArg.str "a b" ∧
    CtxArg.toks ["a", "b"] ≠ CtxArg.str "a b" ∧
    splitWS "a b" = ["a", "b"] := by
  refine ⟨rfl, rfl, by decide, rfl⟩

/-- Claim C3, counterexample: with two senses tied at positive overlap 1,
the greedy scorer keeps the first iterated sense `sA3` while the full
ranking's top element is `sB3` (Python's descending tuple sort puts the
greater name first on equal scores), so "greedy equals the top of the full
ranking whenever the top score is > 0" fails as stated. -/
theorem greedy_ranking_tie_cex :
    compare_overlaps_greedy ["w"] [(sA3, ["w"]), (sB3, ["w"])] = some sA3 ∧
    compare_overlaps ["w"] [(sA3, ["w"]), (sB3, ["w"])] false false false
      = Except.ok (PyVal.vSense sB3) ∧
    sA3 ≠ sB3 ∧
    overlapNat ["w"] ["w"] = 1 := by
  refine ⟨rfl, by decide, by decide, rfl⟩

/-- Claim C3, amended: when one sense's overlap strictly exceeds every other
sense's (and is positive), the greedy scorer and the `nbest=False` full
ranking agree on it; when the mapping is nonempty and every overlap is 0,
greedy returns `None` while the full ranking still returns one of the
senses (whose overlap is 0). -/
theorem greedy_matches_ranking_amended :
    (∀ (ctx : List String) (l₁ l₂ : List (Synset × List String)) (ssM : Synset)
        (sigM : List String),
      (∀ p ∈ l₁, overlapNat ctx p.2 < overlapNat ctx sigM) →
      (∀ p ∈ l₂, overlapNat ctx p.2 < overlapNat ctx sigM) →
      0 < overlapNat ctx sigM →
      compare_overlaps_greedy ctx (l₁ ++ (ssM, sigM) :: l₂) = some ssM ∧
      compare_overlaps ctx (l₁ ++ (ssM, sigM) :: l₂) false false false
        = Except.ok (PyVal.vSense ssM)) ∧
    (∀ (ctx : List String) (sigs : List (Synset × List String)),
      sigs ≠ [] → (∀ p ∈ sigs, overlapNat ctx p.2 = 0) →
      compare_overlaps_greedy ctx sigs = none ∧
      ∃ ss sig, (ss, sig) ∈ sigs ∧ overlapNat ctx sig = 0 ∧
        compare_overlaps ctx sigs false false false = Except.ok (PyVal.vSense ss)) := by
  constructor
  · intro ctx l₁ l₂ ssM sigM hl₁ hl₂ hpos
    set M := overlapNat ctx sigM with hM
    constructor
    · unfold compare_overlaps_greedy
      rw [List.foldl_append, List.foldl_cons]
      have h1 : (l₁.foldl (greedyStep ctx) (0, none)).1 < M :=
        greedy_foldl_lt ctx l₁ M (0, none) hl₁ hpos
      have hstep : greedyStep ctx (l₁.foldl (greedyStep ctx) (0, none)) (ssM, sigM)
          = (M, some ssM) := by
        simp [greedyStep, h1]
      rw [hstep]
      rw [greedy_foldl_const ctx l₂ (M, some ssM)
        (fun p hp => Nat.le_of_lt (hl₂ p hp))]
    · have hoverl : overlapScores ctx (l₁ ++ (ssM, sigM) :: l₂)
          = (l₁.map (fun p => (overlapNat ctx p.2, p.1))) ++ (M, ssM)
            :: (l₂.map (fun p => (overlapNat ctx p.2, p.1))) := by
        simp [overlapScores]
      have hne : overlapScores ctx (l₁ ++ (ssM, sigM) :: l₂) ≠ [] := by
        rw [hoverl]; simp
      cases hst : sortDesc (overlapScores ctx (l₁ ++ (ssM, sigM) :: l₂)) with
      | nil => exact absurd hst (sortDesc_ne_nil hne)
      | cons h t =>
        have hmem : h ∈ overlapScores ctx (l₁ ++ (ssM, sigM) :: l₂) :=
          mem_sortDesc.mp (hst ▸ List.mem_cons_self h t)
        have hmax : ∀ a ∈ overlapScores ctx (l₁ ++ (ssM, sigM) :: l₂), a.1 ≤ h.1 := by
          intro a ha
          have : a ∈ h :: t := hst ▸ mem_sortDesc.mpr ha
          rcases List.mem_cons.mp this with rfl | hat
          · exact le_refl _
          · have hp := sortDesc_pairwise (overlapScores ctx (l₁ ++ (ssM, sigM) :: l₂))
            rw [hst] at hp
            exact (List.pairwise_cons.mp hp).1 a hat
        have hMle : M ≤ h.1 := by
          refine hmax (M, ssM) ?_
          rw [hoverl]
          exact List.mem_append_right _ (List.mem_cons_self _ _)
        have hh : h = (M, ssM) := by
          rw [hoverl] at hmem
          rcases List.mem_append.mp hmem with hmem1 | hmem2
          · rcases List.mem_map.mp hmem1 with ⟨p, hp, hfp⟩
            have : h.1 < M := by rw [← hfp]; exact hl₁ p hp
            omega
          · rcases List.mem_cons.mp hmem2 with rfl | hmem3
            · rfl
            · rcases List.mem_map.mp hmem3 with ⟨p, hp, hfp⟩
              have : h.1 < M := by rw [← hfp]; exact hl₂ p hp
              omega
        have hr : rankedSenses ctx (l₁ ++ (ssM, sigM) :: l₂)
            = ssM :: t.map (fun p => p.2) := by
          rw [rankedSenses, hst, hh]
          rfl
        simp only [compare_overlaps, normalizeStep, Bool.false_eq_true, if_false]
        rw [hr]
  · intro ctx sigs hne hz
    constructor
    · unfold compare_overlaps_greedy
      rw [greedy_foldl_const ctx sigs (0, none)
        (fun p hp => Nat.le_of_eq (hz p hp))]
    · have hone : overlapScores ctx sigs ≠ [] := by
        simp only [overlapScores, ne_eq, List.map_eq_nil_iff]
        exact hne
      cases hst : sortDesc (overlapScores ctx sigs) with
      | nil => exact absurd hst (sortDesc_ne_nil hone)
      | cons h t =>
        have hmem : h ∈ overlapScores ctx sigs :=
          mem_sortDesc.mp (hst ▸ List.mem_cons_self h t)
        rcases List.mem_map.mp hmem with ⟨p, hp, hfp⟩
        refine ⟨p.1, p.2, ?_, hz p hp, ?_⟩
        · exact (Prod.mk.eta (p := p)) ▸ hp
        · have hr : rankedSenses ctx sigs = h.2 :: t.map (fun q => q.2) := by
            rw [rankedSenses, hst]; rfl
          have hh2 : h.2 = p.1 := by rw [← hfp]
          simp only [compare_overlaps, normalizeStep, Bool.false_eq_true, if_false]
          rw [hr, hh2]

/-- Claim C3, witness: the amended theorem applied to a unique-maximum
instance (`sA3` scores 1, `sB3` scores 0) and to an all-zero instance. -/
theorem greedy_matches_ranking_amended_witness :
    compare_overlaps_greedy ["w"] [(sA3, ["w"]), (sB3, [])] = some sA3 ∧
    compare_overlaps ["w"] [(sA3, ["w"]), (sB3, [])] false false false
      = Except.ok (PyVal.vSense sA3) ∧
    compare_overlaps_greedy ["u"] [(sA3, ["w"])] = none ∧
    ∃ ss sig, (ss, sig) ∈ [(sA3, ["w"])] ∧ overlapNat ["u"] sig = 0 ∧
      compare_overlaps ["u"] [(sA3, ["w"])] false false false
        = Except.ok (PyVal.vSense ss) := by
  have h1 := greedy_matches_ranking_amended.1 ["w"] [] [(sB3, ([] : List String))]
    sA3 ["w"] (by simp) (by decide) (by decide)
  have h2 := greedy_matches_ranking_amended.2 ["u"] [(sA3, ["w"])]
    (by decide) (by decide)
  exact ⟨h1.1, h1.2, h2.1, h2.2⟩

/-- Claim C5: in `adapted_lesk`, whenever the base signature mapping splits
as `init ++ [(lss, lsig)]`, the scored mapping leaves every entry of `init`
untouched and extends only the last entry, appending the relation-closure
lemma names of that last sense (post-processed by the `lemma`/`stem`
options).  The closure is thus computed from the last iterated sense and
applied only to it. -/
theorem adapted_lesk_last_sense_augmentation :
    ∀ (env : Env) (word : String) (pos : Option String) (lemma_ stem hyperhypo : Bool)
      (init : List (Synset × List String)) (lss : Synset) (lsig : List String),
      simple_signature env word pos lemma_ stem hyperhypo true = init ++ [(lss, lsig)] →
      adaptedSignatures env word pos lemma_ stem hyperhypo
        = Except.ok (init ++ [(lss, lsig ++
            (if stem
              then (if lemma_
                then (relationClosureLemmas env lss).map env.lemmatize
                else relationClosureLemmas env lss).map env.stem
              else (if lemma_
                then (relationClosureLemmas env lss).map env.lemmatize
                else relationClosureLemmas env lss)))]) := by
  intro env w pos l s h init lss lsig hsig
  unfold adaptedSignatures
  rw [hsig]
  simp only [List.getLast?_concat]
  rw [updateLast_append_single]

/-- Claim C5, witness: on a two-sense knowledge base where only the last
sense `sB5` has a relation (`similar_tos` lemma "rel"), the first entry is
unchanged and only `sB5`'s signature gains "rel". -/
theorem adapted_lesk_last_sense_augmentation_witness :
    adaptedSignatures env5 "w" none true false true
      = Except.ok [(sA5, ["aaa"]), (sB5, ["bbb", "rel"])] :=
  adapted_lesk_last_sense_augmentation env5 "w" none true false true
    [(sA5, ["aaa"])] sB5 ["bbb"] rfl

/-- Claim C6, counterexample: no setting of `simple_lesk`'s actual
parameters (`pos`, `lemma`, `stem`, `hyperhypo`) reproduces the signature
mapping that the builder yields with `stop=False` — the entry point has no
`stop` parameter and always builds with `stop=True`, so the stopword "the"
can never survive into a signature. -/
theorem simple_lesk_stop_not_configurable_cex :
    ¬ ∃ (pos : Option String) (lemma_ stem hyperhypo : Bool),
      simple_lesk_signatures env6 "w" pos lemma_ stem hyperhypo
        = simple_signature env6 "w" none true false true false := by
  rintro ⟨pos, l, s, h, heq⟩
  have hrhs : simple_signature env6 "w" none true false true false
      = [(sThe, ["the"])] := rfl
  rw [hrhs] at heq
  rcases pos with _ | p
  · revert heq
    cases l <;> cases s <;> cases h <;> decide
  · unfold simple_lesk_signatures simple_signature at heq
    have hsyn : env6.synsets "w" = [sThe] := rfl
    rw [hsyn] at heq
    simp only [List.filter_cons, List.filter_nil] at heq
    cases hk : posFilters (some p) sThe.pos with
    | true =>
      rw [hk] at heq
      simp at heq
    | false =>
      rw [hk] at heq
      simp only [Bool.not_false, if_true, List.map_cons, List.map_nil,
        List.cons.injEq, Prod.mk.injEq] at heq
      have hsig : sigOf env6 l s h true sThe = ["the"] := heq.1.2
      revert hsig
      cases l <;> cases s <;> cases h <;> decide

/-- Claim C6, amended: `simple_lesk` exposes `lemma`, `stem` and `hyperhypo`
(with declared defaults `lemma=True`, `stem=False`, `hyperhypo=True`), but
not `stop`: for every input it behaves exactly like the spec's
stop-configurable variant fixed at `stop=True`. -/
theorem simple_lesk_flags_amended :
    (∀ (env : Env) (cs w : String) (pos : Option String)
      (lemma_ stem hyperhypo cil nbest keepscore normalizescore : Bool),
      simple_lesk env cs w pos lemma_ stem hyperhypo cil nbest keepscore normalizescore
        = simple_lesk_spec env cs w pos lemma_ stem hyperhypo true cil nbest keepscore
            normalizescore) ∧
    simple_lesk_defaults = (none, true, false, true) :=
  ⟨fun _ _ _ _ _ _ _ _ _ _ _ => rfl, rfl⟩

/-- Claim C7, counterexample: `cosine_lesk` builds its signatures through
`simple_signature` with the builder default `hyperhypo=True`, so hypernym
lemma names DO occur in them — here the hypernym lemma "hyp" of `sHyp`. -/
theorem cosine_lesk_hyperhypo_included_cex :
    hypRel ∈ sHyp.hypernyms ∧ "hyp" ∈ hypRel.lemma_names ∧
    ∃ sig, (sHyp, sig) ∈ cosine_lesk_signatures env7 "w" false true ∧ "hyp" ∈ sig :=
  ⟨by decide, by decide, ["def", "hyp"], by decide, by decide⟩

/-- Claim C7, amended: `cosine_lesk` exposes `lemma`, `stem`, `stop` with
declared defaults `lemma=True, stem=False, stop=True`, but it does NOT
suppress the hyperhypo augmentation: every hypernym/hyponym lemma name of a
candidate sense that survives the stopword filter appears (lemmatized, and
stemmed when `stem` is set) in the signature `cosine_lesk` builds for that
sense. -/
theorem cosine_lesk_flags_amended :
    cosine_lesk_defaults = (true, false, true) ∧
    ∀ (env : Env) (word : String) (stem stop : Bool) (ss : Synset) (x : String),
      ss ∈ env.synsets word →
      x ∈ hyperhypoLemmaNames ss →
      (stop = true → x ∉ env.stopwords) →
      ∃ sig, (ss, sig) ∈ cosine_lesk_signatures env word stem stop ∧
        (if stem then env.stem (env.lemmatize x) else env.lemmatize x) ∈ sig := by
  refine ⟨rfl, ?_⟩
  intro env w stem stop ss x hss hx hstop
  refine ⟨sigOf env true stem true stop ss, ?_, ?_⟩
  · unfold cosine_lesk_signatures simple_signature
    refine List.mem_map.mpr ⟨ss, ?_, rfl⟩
    refine List.mem_filter.mpr ⟨hss, ?_⟩
    simp [posFilters]
  · have hfil : x ∈ (if stop then
        ((ss.definition ++ ss.examples.flatten ++ ss.lemma_names)
          ++ hyperhypoLemmaNames ss).filter (fun i => decide (i ∉ env.stopwords))
        else (ss.definition ++ ss.examples.flatten ++ ss.lemma_names)
          ++ hyperhypoLemmaNames ss) := by
      cases stop with
      | false => exact List.mem_append_right _ hx
      | true =>
        refine List.mem_filter.mpr ⟨List.mem_append_right _ hx, ?_⟩
        exact decide_eq_true (hstop rfl)
    cases stem with
    | false => exact List.mem_map_of_mem env.lemmatize hfil
    | true =>
      exact List.mem_map_of_mem env.stem (List.mem_map_of_mem env.lemmatize hfil)

/-- Claim C7, witness: the amended theorem at the concrete knowledge base
`env7`, exhibiting the hypernym lemma "hyp" inside the signature built for
`sHyp`. -/
theorem cosine_lesk_flags_amended_witness :
    ∃ sig, (sHyp, sig) ∈ cosine_lesk_signatures env7 "w" false true ∧
      env7.lemmatize "hyp" ∈ sig :=
  cosine_lesk_flags_amended.2 env7 "w" false true sHyp "hyp"
    (by decide) (by decide) (fun _ => by decide)

/-- Claim C8: whatever the context, signature mapping and `normalizescore`
flag, when `compare_overlaps` with `nbest=True, keepscore=True` returns a
scored candidate list, that list is sorted in non-increasing score order. -/
theorem compare_overlaps_nbest_sorted :
    ∀ (context : List String) (sigs : List (Synset × List String))
      (normalizescore : Bool) (l : List (ℚ × Synset)),
      compare_overlaps context sigs true true normalizescore
        = Except.ok (PyVal.vScoredList l) →
      l.Pairwise (fun a b => b.1 ≤ a.1) := by
  intro ctx sigs ns l h
  have hpw := sortDesc_pairwise (overlapScores ctx sigs)
  cases hns : normalizeStep (sortDesc (overlapScores ctx sigs)) ns with
  | error e =>
    rw [compare_overlaps, hns] at h
    exact absurd h (by simp)
  | ok rq =>
    rw [compare_overlaps, hns] at h
    simp only [if_true, Except.ok.injEq, PyVal.vScoredList.injEq] at h
    subst h
    exact normalizeStep_ok_pairwise hpw hns

/-- Claim C8, witness: the sortedness theorem applied to a concrete
single-candidate ranking. -/
theorem compare_overlaps_nbest_sorted_witness :
    List.Pairwise (fun (a b : ℚ × Synset) => b.1 ≤ a.1) [(((1 : Nat) : ℚ), sOnly)] :=
  compare_overlaps_nbest_sorted ["aaa"] [(sOnly, ["aaa"])] false
    [(((1 : Nat) : ℚ), sOnly)] rfl

/-- Claim C9: with `keepscore=False` the ranking is recomputed from the raw
overlap counts, so whenever the `normalizescore=True` call returns at all it
returns exactly what the `normalizescore=False` call returns. -/
theorem keepscore_false_normalize_irrelevant :
    ∀ (context : List String) (sigs : List (Synset × List String)) (nbest : Bool)
      (r : PyVal),
      compare_overlaps context sigs nbest false true = Except.ok r →
      compare_overlaps context sigs nbest false false = Except.ok r := by
  intro ctx sigs nb r h
  cases hns : normalizeStep (sortDesc (overlapScores ctx sigs)) true with
  | error e =>
    rw [compare_overlaps, hns] at h
    exact absurd h (by simp)
  | ok rq =>
    rw [compare_overlaps, hns] at h
    rw [compare_overlaps]
    simp only [normalizeStep, Bool.false_eq_true, if_false]
    simpa using h

/-- Claim C9, witness: the irrelevance theorem applied at a concrete input
on which the normalizing call succeeds. -/
theorem keepscore_false_normalize_irrelevant_witness :
    compare_overlaps [] ([] : List (Synset × List String)) true false false
      = Except.ok (PyVal.vSenseList []) :=
  keepscore_false_normalize_irrelevant [] [] true (PyVal.vSenseList []) rfl
